import Mathlib

/-!
# Agent Control Plane — verification of the core engines

Shallow embedding of the repository's redaction, comparison, analysis,
counterfactual, run-loading and replay code, together with proofs of the
specification's claims about them.

Strings are modelled as `List Char`; JSON payloads as the mutual inductive
`JValue`/`JArray`/`JObject` (object member order is significant, matching
`JSON.stringify`-based structural comparison in the source).
-/

namespace ACP

abbrev Str := List Char

/-! ## SecretRedactor (src/vscode-extension/src/utils/SecretRedactor.ts)

The four default secret regexes are

  sk-[a-zA-Z0-9]{20,}            ghp_[a-zA-Z0-9]{20,}
  eyJ[a-zA-Z0-9_-]{10,}\.[a-zA-Z0-9_-]{10,}\.[a-zA-Z0-9_-]{10,}
  xox[baprs]-[a-zA-Z0-9]{10,}

For every one of them, each greedy quantified class is followed either by the
end of the pattern or by a literal `.` that the class does not contain, so
JavaScript's backtracking matcher is equivalent to the deterministic
maximal-run matcher `matchItems` below: a pattern is a list of items, an item
is a literal character, a single character of a class, or a greedy run of a
class with a minimum length. -/

/-- ASCII `[a-zA-Z0-9]`, the class of the API-key patterns. -/
def alnum (c : Char) : Bool := c.isAlphanum

/-- ASCII `[a-zA-Z0-9_-]`, the JWT segment class. -/
def wchar (c : Char) : Bool := c.isAlphanum || c == '-' || c == '_'

/-- All characters that can occur inside any of the four patterns
(classes plus the literals `-`, `_`, `.`; the letter literals are alnum). -/
def gchar (c : Char) : Bool := c.isAlphanum || c == '-' || c == '_' || c == '.'

/-- One element of a secret pattern. -/
inductive RItem where
  | lit (c : Char)
  | cls (f : Char → Bool)
  | rep (f : Char → Bool) (m : Nat)

/-- Deterministic matcher: returns the remainder of the input after a match
at the start, `none` when the pattern does not match at the start.
`rep` consumes the maximal run of its class (greedy, no backtracking). -/
def matchItems : List RItem → Str → Option Str
  | [], s => some s
  | .lit c :: its, d :: s => if d = c then matchItems its s else none
  | .lit _ :: _, [] => none
  | .cls f :: its, d :: s => if f d then matchItems its s else none
  | .cls _ :: _, [] => none
  | .rep f m :: its, s =>
      if m ≤ (s.takeWhile f).length then matchItems its (s.dropWhile f) else none

/-- The fixed mask `'********'`. -/
def mask : Str := List.replicate 8 '*'

theorem matchItems_suffix {p : List RItem} {s r : Str}
    (h : matchItems p s = some r) : r.IsSuffix s := by
  induction p generalizing s with
  | nil => simp [matchItems] at h; simp [h]
  | cons it its ih =>
    cases it with
    | lit c =>
      cases s with
      | nil => simp [matchItems] at h
      | cons d s' =>
        simp only [matchItems] at h
        split at h
        · exact (ih h).trans (List.suffix_cons d s')
        · exact absurd h (by simp)
    | cls f =>
      cases s with
      | nil => simp [matchItems] at h
      | cons d s' =>
        simp only [matchItems] at h
        split at h
        · exact (ih h).trans (List.suffix_cons d s')
        · exact absurd h (by simp)
    | rep f m =>
      simp only [matchItems] at h
      split at h
      · exact (ih h).trans (List.dropWhile_suffix f)
      · exact absurd h (by simp)

theorem matchItems_length_le {p : List RItem} {s r : Str}
    (h : matchItems p s = some r) : r.length ≤ s.length :=
  (matchItems_suffix h).length_le

theorem matchItems_lit_lt {c : Char} {its : List RItem} {s r : Str}
    (h : matchItems (.lit c :: its) s = some r) : r.length < s.length := by
  cases s with
  | nil => simp [matchItems] at h
  | cons d s' =>
    simp only [matchItems] at h
    split at h
    · exact Nat.lt_of_le_of_lt (matchItems_length_le h) (by simp)
    · exact absurd h (by simp)

/-- Global scan-and-replace: walk the string left to right; where the pattern
matches, emit the mask and continue after the match, otherwise copy one
character.  This is `String.prototype.replace` with a `/g` regex for the
patterns above.  (The `else` arm of the inner guard is unreachable for the
four secret patterns, whose matches are nonempty by `matchItems_lit_lt`;
it only serves termination.) -/
def scan (p : List RItem) : Str → Str
  | [] => []
  | c :: cs =>
    match matchItems p (c :: cs) with
    | none => c :: scan p cs
    | some r =>
      if r.length ≤ cs.length then mask ++ scan p r
      else c :: scan p cs
termination_by s => s.length
decreasing_by
  all_goals simp
  all_goals omega

def skPattern : List RItem := [.lit 's', .lit 'k', .lit '-', .rep alnum 20]

def ghpPattern : List RItem := [.lit 'g', .lit 'h', .lit 'p', .lit '_', .rep alnum 20]

def jwtPattern : List RItem :=
  [.lit 'e', .lit 'y', .lit 'J', .rep wchar 10, .lit '.', .rep wchar 10, .lit '.', .rep wchar 10]

def xoxChar (c : Char) : Bool := c == 'b' || c == 'a' || c == 'p' || c == 'r' || c == 's'

def xoxPattern : List RItem :=
  [.lit 'x', .lit 'o', .lit 'x', .cls xoxChar, .lit '-', .rep alnum 10]

/-- `SecretRedactor.redact`: the empty-string guard (`if (!text) return text`)
followed by the four global replacements, in the order of `PATTERNS`. -/
def redact (s : Str) : Str :=
  if s.isEmpty then s
  else scan xoxPattern (scan jwtPattern (scan ghpPattern (scan skPattern s)))

/-- `p` occurs somewhere in `s` (a match at the start of some suffix). -/
def occursB (p : List RItem) : Str → Bool
  | [] => (matchItems p []).isSome
  | c :: cs => (matchItems p (c :: cs)).isSome || occursB p cs

/-- Per-item wellformedness: literals and classes stay inside `gchar`,
run minimums are positive. -/
def itemOK : RItem → Prop
  | .lit c => gchar c = true
  | .cls f => ∀ c, f c = true → gchar c = true
  | .rep f m => (∀ c, f c = true → gchar c = true) ∧ 1 ≤ m

/-- Wellformed pattern: headed by a literal, all items inside `gchar`. -/
structure PatOK (p : List RItem) : Prop where
  head : ∃ c rest, p = .lit c :: rest
  ok : ∀ i ∈ p, itemOK i

theorem takeWhile_append_stop {f : Char → Bool} {r : Str} (g : Str)
    (hr : ∀ d, r.head? = some d → f d = false) :
    (g ++ r).takeWhile f = g.takeWhile f := by
  induction g with
  | nil =>
    simp only [List.nil_append, List.takeWhile_nil]
    cases r with
    | nil => rfl
    | cons d r' => simp [List.takeWhile_cons, hr d rfl]
  | cons a g' ih =>
    by_cases ha : f a
    · simp [List.takeWhile_cons, ha, ih]
    · simp [List.takeWhile_cons, ha]

theorem dropWhile_append_stop {f : Char → Bool} {r : Str} (g : Str)
    (hr : ∀ d, r.head? = some d → f d = false) :
    (g ++ r).dropWhile f = g.dropWhile f ++ r := by
  induction g with
  | nil =>
    simp only [List.nil_append, List.dropWhile_nil]
    cases r with
    | nil => rfl
    | cons d r' => simp [List.dropWhile_cons, hr d rfl]
  | cons a g' ih =>
    by_cases ha : f a
    · simp [List.dropWhile_cons, ha, ih]
    · simp [List.dropWhile_cons, ha]

theorem takeWhile_append_inner {f : Char → Bool} {g : Str} (e : Str)
    (hg : g.dropWhile f ≠ []) :
    (g ++ e).takeWhile f = g.takeWhile f := by
  induction g with
  | nil => simp at hg
  | cons a g' ih =>
    by_cases ha : f a
    · simp only [List.dropWhile_cons, ha, if_true] at hg
      simp [List.takeWhile_cons, ha, ih hg]
    · simp [List.takeWhile_cons, ha]

theorem dropWhile_append_inner {f : Char → Bool} {g : Str} (e : Str)
    (hg : g.dropWhile f ≠ []) :
    (g ++ e).dropWhile f = g.dropWhile f ++ e := by
  induction g with
  | nil => simp at hg
  | cons a g' ih =>
    by_cases ha : f a
    · simp only [List.dropWhile_cons, ha, if_true] at hg
      simp [List.dropWhile_cons, ha, ih hg]
    · simp [List.dropWhile_cons, ha]

theorem takeWhile_append_all {f : Char → Bool} {g : Str} (e : Str)
    (hg : ∀ c ∈ g, f c = true) :
    (g ++ e).takeWhile f = g ++ e.takeWhile f := by
  induction g with
  | nil => simp
  | cons a g' ih =>
    have ha : f a = true := hg a (List.mem_cons_self _ _)
    simp [List.takeWhile_cons, ha, ih (fun c hc => hg c (List.mem_cons_of_mem _ hc))]

theorem dropWhile_append_all {f : Char → Bool} {g : Str} (e : Str)
    (hg : ∀ c ∈ g, f c = true) :
    (g ++ e).dropWhile f = e.dropWhile f := by
  induction g with
  | nil => simp
  | cons a g' ih =>
    have ha : f a = true := hg a (List.mem_cons_self _ _)
    simp [List.dropWhile_cons, ha, ih (fun c hc => hg c (List.mem_cons_of_mem _ hc))]

theorem head_dropWhile_false {f : Char → Bool} (l : Str) :
    ∀ d, (l.dropWhile f).head? = some d → f d = false := by
  induction l with
  | nil => intro d h; simp at h
  | cons a l' ih =>
    intro d h
    by_cases ha : f a
    · exact ih d (by simpa [List.dropWhile_cons, ha] using h)
    · have hrw : List.dropWhile f (a :: l') = a :: l' := by
        simp [List.dropWhile_cons]
        intro hc; exact absurd hc ha
      rw [hrw] at h
      simp only [List.head?_cons, Option.some.injEq] at h
      subst h
      simpa using ha

/-- Matching only looks at the maximal `gchar` prefix: appending anything
after a non-`gchar` boundary does not change whether a match starts here. -/
theorem matchItems_isSome_local {p : List RItem} (hp : ∀ i ∈ p, itemOK i)
    {r : Str} (hr : ∀ d, r.head? = some d → gchar d = false) :
    ∀ g : Str, (∀ c ∈ g, gchar c = true) →
      (matchItems p (g ++ r)).isSome = (matchItems p g).isSome := by
  induction p with
  | nil => intro g _; simp [matchItems]
  | cons it its ih =>
    have hits : ∀ i ∈ its, itemOK i := fun i hi => hp i (List.mem_cons_of_mem _ hi)
    intro g hg
    cases it with
    | lit c =>
      have hc : gchar c = true := hp _ (List.mem_cons_self _ _)
      cases g with
      | nil =>
        cases r with
        | nil => simp [matchItems]
        | cons d r' =>
          have hd : gchar d = false := hr d rfl
          have : d ≠ c := fun h => by rw [h] at hd; rw [hc] at hd; exact Bool.noConfusion hd
          simp [matchItems, this]
      | cons a g' =>
        by_cases hac : a = c
        · simpa [matchItems, hac] using ih hits g' (fun x hx => hg x (List.mem_cons_of_mem _ hx))
        · simp [matchItems, hac]
    | cls f =>
      have hf : ∀ c, f c = true → gchar c = true := hp _ (List.mem_cons_self _ _)
      cases g with
      | nil =>
        cases r with
        | nil => simp [matchItems]
        | cons d r' =>
          have hd : gchar d = false := hr d rfl
          have : f d = false := by
            cases hfd : f d with
            | false => rfl
            | true => rw [hf d hfd] at hd; exact Bool.noConfusion hd
          simp [matchItems, this]
      | cons a g' =>
        by_cases haf : f a
        · simpa [matchItems, haf] using ih hits g' (fun x hx => hg x (List.mem_cons_of_mem _ hx))
        · simp [matchItems, haf]
    | rep f m =>
      have hf : ∀ c, f c = true → gchar c = true := (hp _ (List.mem_cons_self _ _)).1
      have hrf : ∀ d, r.head? = some d → f d = false := by
        intro d hd
        cases hfd : f d with
        | false => rfl
        | true => exact absurd (hf d hfd) (by simp [hr d hd])
      rw [matchItems, matchItems, takeWhile_append_stop g hrf, dropWhile_append_stop g hrf]
      by_cases hm : m ≤ (g.takeWhile f).length
      · simp only [hm, if_true]
        exact ih hits (g.dropWhile f)
          (fun x hx => hg x ((List.dropWhile_sublist f).mem hx))
      · simp [hm]

/-- A match at the start survives extending the string to the right. -/
theorem matchItems_isSome_mono {p : List RItem} (hp : ∀ i ∈ p, itemOK i) (e : Str) :
    ∀ g : Str, (matchItems p g).isSome = true → (matchItems p (g ++ e)).isSome = true := by
  induction p with
  | nil => intro g _; simp [matchItems]
  | cons it its ih =>
    have hits : ∀ i ∈ its, itemOK i := fun i hi => hp i (List.mem_cons_of_mem _ hi)
    intro g hm
    cases it with
    | lit c =>
      cases g with
      | nil => simp [matchItems] at hm
      | cons a g' =>
        by_cases hac : a = c
        · subst hac
          simp only [matchItems, if_pos rfl, List.cons_append] at hm ⊢
          exact ih hits g' hm
        · simp [matchItems, hac] at hm
    | cls f =>
      cases g with
      | nil => simp [matchItems] at hm
      | cons a g' =>
        by_cases haf : f a
        · simp only [matchItems, haf, if_true, List.cons_append] at hm ⊢
          exact ih hits g' hm
        · simp [matchItems, haf] at hm
    | rep f m =>
      have hfm : 1 ≤ m := (hp _ (List.mem_cons_self _ _)).2
      simp only [matchItems] at hm
      split at hm
      case isFalse => exact absurd hm (by simp)
      case isTrue hle =>
        by_cases hdw : g.dropWhile f = []
        · -- g consists purely of f-characters: the run extends into e
          have hall : ∀ x ∈ g, f x = true := List.dropWhile_eq_nil_iff.mp hdw
          have htg : g.takeWhile f = g := List.takeWhile_eq_self_iff.mpr hall
          rw [matchItems, takeWhile_append_all e hall, dropWhile_append_all e hall]
          have hlen : m ≤ (g ++ e.takeWhile f).length := by
            rw [htg] at hle; simp only [List.length_append]; omega
          simp only [hlen, if_true]
          rw [hdw] at hm
          -- a continuation that accepts the empty remainder accepts any:
          -- with positive run minimums it can only be the empty continuation
          cases its with
          | nil => simp [matchItems]
          | cons jt jts =>
            cases jt with
            | lit c => simp [matchItems] at hm
            | cls f' => simp [matchItems] at hm
            | rep f' m' =>
              have : 1 ≤ m' := (hp _ (List.mem_cons_of_mem _ (List.mem_cons_self _ _))).2
              simp only [matchItems, List.takeWhile_nil, List.length_nil] at hm
              rw [if_neg (by omega)] at hm
              exact absurd hm (by simp)
        · rw [matchItems, takeWhile_append_inner e hdw, dropWhile_append_inner e hdw]
          simp only [hle, if_true]
          exact ih hits _ hm

theorem matchItems_star_none {c : Char} {its : List RItem} (hc : gchar c = true)
    (t : Str) : matchItems (.lit c :: its) ('*' :: t) = none := by
  have : ('*' : Char) ≠ c := by
    intro h; rw [← h] at hc; exact absurd hc (by decide)
  simp [matchItems, this]

theorem occursB_append_false {p : List RItem} {u t : Str}
    (h : occursB p (u ++ t) = false) : occursB p t = false := by
  induction u with
  | nil => simpa using h
  | cons a u' ih =>
    rw [List.cons_append, occursB, Bool.or_eq_false_iff] at h
    exact ih h.2

theorem occursB_of_suffix {p : List RItem} {s t : Str}
    (hst : t.IsSuffix s) (h : occursB p s = false) : occursB p t = false := by
  obtain ⟨u, rfl⟩ := hst
  exact occursB_append_false h

theorem occursB_mask_append {c : Char} {its : List RItem} (hc : gchar c = true)
    (t : Str) : occursB (.lit c :: its) (mask ++ t) = occursB (.lit c :: its) t := by
  show occursB _ (List.replicate 8 '*' ++ t) = _
  induction (8 : Nat) with
  | zero => rfl
  | succ n ih =>
    rw [List.replicate_succ, List.cons_append, occursB,
      matchItems_star_none hc, ih]
    rfl

theorem patOK_head_gchar {p : List RItem} (hp : PatOK p) {c : Char}
    {rest : List RItem} (hh : p = .lit c :: rest) : gchar c = true := by
  have h := hp.ok (.lit c) (by rw [hh]; exact List.mem_cons_self _ _)
  simpa [itemOK] using h

theorem takeWhile_gchar_mask_append (t : Str) :
    (mask ++ t).takeWhile gchar = [] := by
  have h : gchar '*' = false := by decide
  show ((List.replicate 8 '*' ++ t).takeWhile gchar) = []
  rw [List.replicate_succ, List.cons_append, List.takeWhile_cons, h]
  simp

/-- The maximal `gchar` prefix of a scanned string is a prefix of the
original's: replacements only insert `*`, which is not a `gchar`. -/
theorem takeWhile_gchar_scan_prefix (q : List RItem) :
    ∀ s : Str, ((scan q s).takeWhile gchar) <+: (s.takeWhile gchar) := by
  have main : ∀ n, ∀ s : Str, s.length ≤ n →
      ((scan q s).takeWhile gchar) <+: (s.takeWhile gchar) := by
    intro n
    induction n with
    | zero =>
      intro s hs
      rw [List.eq_nil_of_length_eq_zero (Nat.le_zero.mp hs), scan]
    | succ n ih =>
      intro s hs
      cases s with
      | nil => rw [scan]
      | cons c cs =>
        have hcs : cs.length ≤ n := by simpa using hs
        rw [scan]
        cases hmi : matchItems q (c :: cs) with
        | none =>
          by_cases hc : gchar c
          · simp only [List.takeWhile_cons, hc, if_true]
            exact List.cons_prefix_cons.mpr ⟨rfl, ih cs hcs⟩
          · simp [List.takeWhile_cons, hc]
        | some r =>
          by_cases hlen : r.length ≤ cs.length
          · simp only [hlen, if_true]
            rw [takeWhile_gchar_mask_append]
            exact List.nil_prefix
          · simp only [hlen, if_false]
            by_cases hc : gchar c
            · simp only [List.takeWhile_cons, hc, if_true]
              exact List.cons_prefix_cons.mpr ⟨rfl, ih cs hcs⟩
            · simp [List.takeWhile_cons, hc]
  intro s
  exact main s.length s le_rfl

/-- If no match starts at the head of `s`, then none starts at the head of any
string whose `gchar` prefix is a prefix of that of `s`. -/
theorem matchItems_isSome_false_of_gprefix {p : List RItem} (hp : ∀ i ∈ p, itemOK i)
    {s t : Str} (hs : (matchItems p s).isSome = false)
    (hpre : (t.takeWhile gchar) <+: (s.takeWhile gchar)) :
    (matchItems p t).isSome = false := by
  have hloc : ∀ u : Str, (matchItems p u).isSome = (matchItems p (u.takeWhile gchar)).isSome := by
    intro u
    conv_lhs => rw [← List.takeWhile_append_dropWhile (p := gchar) (l := u)]
    exact matchItems_isSome_local hp (head_dropWhile_false u) _
      (fun c hc => List.mem_takeWhile_imp hc)
  obtain ⟨e, he⟩ := hpre
  rw [hloc t]
  cases hsome : (matchItems p (t.takeWhile gchar)).isSome with
  | false => rfl
  | true =>
    have := matchItems_isSome_mono hp e _ hsome
    rw [he, ← hloc s] at this
    rw [this] at hs
    exact hs

/-- Scanning with `p` leaves no occurrence of `p`. -/
theorem occursB_scan_self {p : List RItem} (hp : PatOK p) :
    ∀ s : Str, occursB p (scan p s) = false := by
  obtain ⟨c0, rest0, hhead⟩ := hp.head
  have main : ∀ n, ∀ s : Str, s.length ≤ n → occursB p (scan p s) = false := by
    intro n
    induction n with
    | zero =>
      intro s hs
      rw [List.eq_nil_of_length_eq_zero (Nat.le_zero.mp hs), scan, hhead]
      rfl
    | succ n ih =>
      intro s hs
      cases s with
      | nil => rw [scan, hhead]; rfl
      | cons c cs =>
        have hcs : cs.length ≤ n := by simpa using hs
        rw [scan]
        cases hmi : matchItems p (c :: cs) with
        | none =>
          rw [occursB, Bool.or_eq_false_iff]
          constructor
          · apply matchItems_isSome_false_of_gprefix hp.ok (by rw [hmi]; rfl)
            by_cases hc : gchar c
            · simp only [List.takeWhile_cons, hc, if_true]
              exact List.cons_prefix_cons.mpr ⟨rfl, takeWhile_gchar_scan_prefix p cs⟩
            · simp [List.takeWhile_cons, hc]
          · exact ih cs hcs
        | some r =>
          have hlt : r.length < (c :: cs).length := by
            rw [hhead] at hmi; exact matchItems_lit_lt hmi
          have hlen : r.length ≤ cs.length := by
            simp only [List.length_cons] at hlt; omega
          simp only [hlen, if_true]
          rw [hhead, occursB_mask_append (patOK_head_gchar hp hhead), ← hhead]
          exact ih r (by omega)
  intro s
  exact main s.length s le_rfl

/-- Scanning with any pattern `q` preserves freeness from a wellformed `p`. -/
theorem occursB_scan_preserve {p : List RItem} (hp : PatOK p) (q : List RItem) :
    ∀ s : Str, occursB p s = false → occursB p (scan q s) = false := by
  obtain ⟨c0, rest0, hhead⟩ := hp.head
  have main : ∀ n, ∀ s : Str, s.length ≤ n →
      occursB p s = false → occursB p (scan q s) = false := by
    intro n
    induction n with
    | zero =>
      intro s hs hfree
      rw [List.eq_nil_of_length_eq_zero (Nat.le_zero.mp hs), scan]
      rw [List.eq_nil_of_length_eq_zero (Nat.le_zero.mp hs)] at hfree
      exact hfree
    | succ n ih =>
      intro s hs hfree
      cases s with
      | nil => rw [scan]; exact hfree
      | cons c cs =>
        have hcs : cs.length ≤ n := by simpa using hs
        rw [occursB, Bool.or_eq_false_iff] at hfree
        have hmain : occursB p (c :: scan q cs) = false := by
          rw [occursB, Bool.or_eq_false_iff]
          constructor
          · apply matchItems_isSome_false_of_gprefix hp.ok hfree.1
            by_cases hc : gchar c
            · simp only [List.takeWhile_cons, hc, if_true]
              exact List.cons_prefix_cons.mpr ⟨rfl, takeWhile_gchar_scan_prefix q cs⟩
            · simp [List.takeWhile_cons, hc]
          · exact ih cs hcs hfree.2
        rw [scan]
        cases hmi : matchItems q (c :: cs) with
        | none => exact hmain
        | some r =>
          by_cases hlen : r.length ≤ cs.length
          · simp only [hlen, if_true]
            rw [hhead, occursB_mask_append (patOK_head_gchar hp hhead), ← hhead]
            have hsuf : r.IsSuffix (c :: cs) := matchItems_suffix hmi
            have hfr : occursB p r = false := by
              apply occursB_of_suffix hsuf
              rw [occursB, Bool.or_eq_false_iff]
              exact hfree
            exact ih r (by omega) hfr
          · simp only [hlen, if_false]
            exact hmain
  intro s
  exact main s.length s le_rfl

/-- A string free of `p` scans to itself. -/
theorem scan_eq_self_of_free {p : List RItem} :
    ∀ s : Str, occursB p s = false → scan p s = s := by
  have main : ∀ n, ∀ s : Str, s.length ≤ n →
      occursB p s = false → scan p s = s := by
    intro n
    induction n with
    | zero =>
      intro s hs _
      rw [List.eq_nil_of_length_eq_zero (Nat.le_zero.mp hs), scan]
    | succ n ih =>
      intro s hs hfree
      cases s with
      | nil => rw [scan]
      | cons c cs =>
        have hcs : cs.length ≤ n := by simpa using hs
        rw [occursB, Bool.or_eq_false_iff] at hfree
        rw [scan]
        cases hmi : matchItems p (c :: cs) with
        | none => rw [ih cs hcs hfree.2]
        | some r =>
          rw [hmi] at hfree
          exact absurd hfree.1 (by simp)
  intro s
  exact main s.length s le_rfl

theorem alnum_gchar : ∀ c, alnum c = true → gchar c = true := by
  intro c h
  simp only [alnum] at h
  simp [gchar, h]

theorem wchar_gchar : ∀ c, wchar c = true → gchar c = true := by
  intro c h
  simp only [wchar, Bool.or_eq_true, beq_iff_eq] at h
  rcases h with (h | h) | h
  · simp [gchar, h]
  · subst h; decide
  · subst h; decide

theorem xoxChar_gchar : ∀ c, xoxChar c = true → gchar c = true := by
  intro c h
  simp only [xoxChar, Bool.or_eq_true, beq_iff_eq] at h
  rcases h with (((h | h) | h) | h) | h <;> subst h <;> decide

theorem patOK_sk : PatOK skPattern := by
  refine ⟨⟨'s', _, rfl⟩, ?_⟩
  intro i hi
  simp only [skPattern, List.mem_cons, List.not_mem_nil, or_false] at hi
  rcases hi with rfl | rfl | rfl | rfl <;> simp only [itemOK]
  · decide
  · decide
  · decide
  · exact ⟨alnum_gchar, by omega⟩

theorem patOK_ghp : PatOK ghpPattern := by
  refine ⟨⟨'g', _, rfl⟩, ?_⟩
  intro i hi
  simp only [ghpPattern, List.mem_cons, List.not_mem_nil, or_false] at hi
  rcases hi with rfl | rfl | rfl | rfl | rfl <;> simp only [itemOK]
  · decide
  · decide
  · decide
  · decide
  · exact ⟨alnum_gchar, by omega⟩

theorem patOK_jwt : PatOK jwtPattern := by
  refine ⟨⟨'e', _, rfl⟩, ?_⟩
  intro i hi
  simp only [jwtPattern, List.mem_cons, List.not_mem_nil, or_false] at hi
  rcases hi with rfl | rfl | rfl | rfl | rfl | rfl | rfl | rfl <;> simp only [itemOK]
  · decide
  · decide
  · decide
  · exact ⟨wchar_gchar, by omega⟩
  · decide
  · exact ⟨wchar_gchar, by omega⟩
  · decide
  · exact ⟨wchar_gchar, by omega⟩

theorem patOK_xox : PatOK xoxPattern := by
  refine ⟨⟨'x', _, rfl⟩, ?_⟩
  intro i hi
  simp only [xoxPattern, List.mem_cons, List.not_mem_nil, or_false] at hi
  rcases hi with rfl | rfl | rfl | rfl | rfl | rfl <;> simp only [itemOK]
  · decide
  · decide
  · decide
  · exact xoxChar_gchar
  · decide
  · exact ⟨alnum_gchar, by omega⟩

/-- No occurrence of any of the four default secret patterns. -/
def secretFree (s : Str) : Bool :=
  !(occursB skPattern s) && !(occursB ghpPattern s) &&
  !(occursB jwtPattern s) && !(occursB xoxPattern s)

theorem secretFree_redact (s : Str) : secretFree (redact s) = true := by
  rw [redact]
  by_cases hs : s.isEmpty
  · rw [if_pos hs, List.isEmpty_iff.mp hs]
    decide
  · rw [if_neg hs]
    have hsk1 := occursB_scan_self patOK_sk s
    have hsk2 := occursB_scan_preserve patOK_sk ghpPattern _ hsk1
    have hsk3 := occursB_scan_preserve patOK_sk jwtPattern _ hsk2
    have hsk4 := occursB_scan_preserve patOK_sk xoxPattern _ hsk3
    have hg1 := occursB_scan_self patOK_ghp (scan skPattern s)
    have hg2 := occursB_scan_preserve patOK_ghp jwtPattern _ hg1
    have hg3 := occursB_scan_preserve patOK_ghp xoxPattern _ hg2
    have hj1 := occursB_scan_self patOK_jwt (scan ghpPattern (scan skPattern s))
    have hj2 := occursB_scan_preserve patOK_jwt xoxPattern _ hj1
    have hx := occursB_scan_self patOK_xox (scan jwtPattern (scan ghpPattern (scan skPattern s)))
    simp [secretFree, hsk4, hg3, hj2, hx]

theorem secretFree_parts {s : Str} (h : secretFree s = true) :
    occursB skPattern s = false ∧ occursB ghpPattern s = false ∧
    occursB jwtPattern s = false ∧ occursB xoxPattern s = false := by
  simp only [secretFree, Bool.and_eq_true, Bool.not_eq_true'] at h
  exact ⟨h.1.1.1, h.1.1.2, h.1.2, h.2⟩

/-- `redact` is idempotent on strings. -/
theorem redact_idem (s : Str) : redact (redact s) = redact s := by
  obtain ⟨h1, h2, h3, h4⟩ := secretFree_parts (secretFree_redact s)
  by_cases h : (redact s).isEmpty
  · conv_lhs => rw [redact]
    rw [if_pos h]
  · conv_lhs => rw [redact]
    rw [if_neg h, scan_eq_self_of_free _ h1, scan_eq_self_of_free _ h2,
      scan_eq_self_of_free _ h3, scan_eq_self_of_free _ h4]

/-! ## JSON payloads

`JValue` models the JavaScript values handled by `redactObject` (and used as
step payloads everywhere else).  Object members are an ordered list, matching
the enumeration order of `for (const key in obj)` and making equality agree
with `JSON.stringify`-based structural comparison. -/

mutual
inductive JValue where
  | str (s : Str)
  | num (n : Int)
  | bool (b : Bool)
  | null
  | arr (xs : JArray)
  | obj (kvs : JObject)
  deriving DecidableEq
inductive JArray where
  | nil
  | cons (v : JValue) (t : JArray)
  deriving DecidableEq
inductive JObject where
  | nil
  | cons (k : Str) (v : JValue) (t : JObject)
  deriving DecidableEq
end

def toLowerStr (s : Str) : Str := s.map Char.toLower

def isSubstrOf : Str → Str → Bool
  | n, [] => n.isEmpty
  | n, c :: t => n.isPrefixOf (c :: t) || isSubstrOf n t

/-- The key heuristic `/key|token|secret|password|auth/i.test(key)`: the five
needles are lowercase ASCII, so case-insensitive search equals searching the
lowercased key. -/
def isRedactionKey (k : Str) : Bool :=
  let lk := toLowerStr k
  isSubstrOf ('k' :: 'e' :: 'y' :: []) lk ||
  isSubstrOf ('t' :: 'o' :: 'k' :: 'e' :: 'n' :: []) lk ||
  isSubstrOf ('s' :: 'e' :: 'c' :: 'r' :: 'e' :: 't' :: []) lk ||
  isSubstrOf ('p' :: 'a' :: 's' :: 's' :: 'w' :: 'o' :: 'r' :: 'd' :: []) lk ||
  isSubstrOf ('a' :: 'u' :: 't' :: 'h' :: []) lk

/-! `SecretRedactor.redactObject`: strings run through `redact`, arrays map,
objects mask values under redaction keys and recurse elsewhere; all other
values (numbers, booleans, null) pass through unchanged. -/
mutual
def redactValue : JValue → JValue
  | .str s => .str (redact s)
  | .num n => .num n
  | .bool b => .bool b
  | .null => .null
  | .arr xs => .arr (redactArr xs)
  | .obj kvs => .obj (redactObj kvs)
def redactArr : JArray → JArray
  | .nil => .nil
  | .cons v t => .cons (redactValue v) (redactArr t)
def redactObj : JObject → JObject
  | .nil => .nil
  | .cons k v t =>
      if isRedactionKey k then .cons k (.str mask) (redactObj t)
      else .cons k (redactValue v) (redactObj t)
end

/-! Every string value in the tree (keys are names, not values) is free of
the four default secret patterns. -/
mutual
def stringsClean : JValue → Bool
  | .str s => secretFree s
  | .num _ => true
  | .bool _ => true
  | .null => true
  | .arr xs => stringsCleanArr xs
  | .obj kvs => stringsCleanObj kvs
def stringsCleanArr : JArray → Bool
  | .nil => true
  | .cons v t => stringsClean v && stringsCleanArr t
def stringsCleanObj : JObject → Bool
  | .nil => true
  | .cons _ v t => stringsClean v && stringsCleanObj t
end

def isMaskStr : JValue → Bool
  | .str s => s = mask
  | _ => false

/-! Every value sitting under a redaction key, at any depth, is the mask. -/
mutual
def keysMasked : JValue → Bool
  | .arr xs => keysMaskedArr xs
  | .obj kvs => keysMaskedObj kvs
  | _ => true
def keysMaskedArr : JArray → Bool
  | .nil => true
  | .cons v t => keysMasked v && keysMaskedArr t
def keysMaskedObj : JObject → Bool
  | .nil => true
  | .cons k v t =>
      (if isRedactionKey k then isMaskStr v else keysMasked v) && keysMaskedObj t
end

theorem secretFree_mask : secretFree mask = true := by decide

mutual
theorem stringsClean_redactValue : ∀ v, stringsClean (redactValue v) = true
  | .str s => by rw [redactValue, stringsClean]; exact secretFree_redact s
  | .num n => rfl
  | .bool b => rfl
  | .null => rfl
  | .arr xs => by rw [redactValue, stringsClean]; exact stringsClean_redactArr xs
  | .obj kvs => by rw [redactValue, stringsClean]; exact stringsClean_redactObj kvs
theorem stringsClean_redactArr : ∀ xs, stringsCleanArr (redactArr xs) = true
  | .nil => rfl
  | .cons v t => by
      rw [redactArr, stringsCleanArr, stringsClean_redactValue v,
        stringsClean_redactArr t]
      rfl
theorem stringsClean_redactObj : ∀ kvs, stringsCleanObj (redactObj kvs) = true
  | .nil => rfl
  | .cons k v t => by
      rw [redactObj]
      by_cases hk : isRedactionKey k
      · rw [if_pos hk, stringsCleanObj, stringsClean, secretFree_mask,
          stringsClean_redactObj t]
        rfl
      · rw [if_neg hk, stringsCleanObj, stringsClean_redactValue v,
          stringsClean_redactObj t]
        rfl
end

mutual
theorem keysMasked_redactValue : ∀ v, keysMasked (redactValue v) = true
  | .str s => rfl
  | .num n => rfl
  | .bool b => rfl
  | .null => rfl
  | .arr xs => by rw [redactValue, keysMasked]; exact keysMasked_redactArr xs
  | .obj kvs => by rw [redactValue, keysMasked]; exact keysMasked_redactObj kvs
theorem keysMasked_redactArr : ∀ xs, keysMaskedArr (redactArr xs) = true
  | .nil => rfl
  | .cons v t => by
      rw [redactArr, keysMaskedArr, keysMasked_redactValue v, keysMasked_redactArr t]
      rfl
theorem keysMasked_redactObj : ∀ kvs, keysMaskedObj (redactObj kvs) = true
  | .nil => rfl
  | .cons k v t => by
      rw [redactObj]
      by_cases hk : isRedactionKey k
      · rw [if_pos hk, keysMaskedObj, if_pos hk, keysMasked_redactObj t]
        simp [isMaskStr]
      · rw [if_neg hk, keysMaskedObj, if_neg hk, keysMasked_redactValue v,
          keysMasked_redactObj t]
        rfl
end

mutual
theorem redactValue_idem : ∀ v, redactValue (redactValue v) = redactValue v
  | .str s => by rw [redactValue, redactValue, redact_idem]
  | .num n => rfl
  | .bool b => rfl
  | .null => rfl
  | .arr xs => by rw [redactValue, redactValue, redactArr_idem]
  | .obj kvs => by rw [redactValue, redactValue, redactObj_idem]
theorem redactArr_idem : ∀ xs, redactArr (redactArr xs) = redactArr xs
  | .nil => rfl
  | .cons v t => by rw [redactArr, redactArr, redactValue_idem, redactArr_idem]
theorem redactObj_idem : ∀ kvs, redactObj (redactObj kvs) = redactObj kvs
  | .nil => rfl
  | .cons k v t => by
      by_cases hk : isRedactionKey k
      · rw [redactObj, if_pos hk, redactObj, if_pos hk, redactObj_idem]
      · rw [redactObj, if_neg hk, redactObj, if_neg hk, redactValue_idem,
          redactObj_idem]
end

/-- C1: `redactObject` masks every value under a (case-insensitive)
`key|token|secret|password|auth` key with `'********'` regardless of type,
replaces every substring of a string value matching a default secret pattern
with the mask, and recurses into nested mappings and sequences, so the result
contains no string value with a secret-pattern occurrence and no value under
a redaction key other than the mask. -/
theorem redactObject_clean (v : JValue) :
    stringsClean (redactValue v) = true ∧ keysMasked (redactValue v) = true :=
  ⟨stringsClean_redactValue v, keysMasked_redactValue v⟩

/-- C10: `redactObject` is idempotent — redacting an already-redacted value
returns a structurally equal value. -/
theorem redactObject_idem (v : JValue) :
    redactValue (redactValue v) = redactValue v :=
  redactValue_idem v

/-! ## Data model (src/vscode-extension/src/data/DataTypes.ts)

`phase` and `status` are strings, as in the JavaScript runtime, where the
engines compare them with `===`.  Payload comparison via `JSON.stringify`
equality is `JValue` equality (member order significant). -/

structure AgentStep where
  step_id : Nat
  timestamp : Int
  phase : Str
  input : JValue
  output : JValue
  state_ref : Str
  diff_ref : Option Str := none
  status : Str
  deriving DecidableEq

structure RunMeta where
  run_id : Str
  agent_version : Str
  llm : Str
  temperature : Int
  tools : List Str
  seed : Int
  created_at : Str
  tags : List Str := []
  deriving DecidableEq

structure RunArtifacts where
  meta : RunMeta
  steps : List AgentStep
  path : Str
  deriving DecidableEq

/-! ## ComparisonEngine (src/vscode-extension/src/engines/ComparisonEngine.ts) -/

inductive MatchType where
  | exact
  | phase
  | mismatch
  deriving DecidableEq

structure AlignEntry where
  step1 : Option Nat
  step2 : Option Nat
  matchType : MatchType
  deriving DecidableEq

/-- Body of the `alignSteps` loop for one index (`s1 = steps1[i]`,
`s2 = steps2[i]`).  The `none, none` arm is unreachable for `i < maxLen`. -/
def alignEntry : Option AgentStep → Option AgentStep → AlignEntry
  | some s1, some s2 =>
      if s1.phase = s2.phase ∧ s1.input = s2.input then
        ⟨some s1.step_id, some s2.step_id, .exact⟩
      else if s1.phase = s2.phase then
        ⟨some s1.step_id, some s2.step_id, .phase⟩
      else
        ⟨some s1.step_id, some s2.step_id, .mismatch⟩
  | some s1, none => ⟨some s1.step_id, none, .mismatch⟩
  | none, some s2 => ⟨none, some s2.step_id, .mismatch⟩
  | none, none => ⟨none, none, .mismatch⟩

/-- `ComparisonEngine.alignSteps`. -/
def alignSteps (steps1 steps2 : List AgentStep) : List AlignEntry :=
  (List.range (max steps1.length steps2.length)).map
    (fun i => alignEntry steps1[i]? steps2[i]?)

/-- The early-return loop of `findDivergence` over the shared prefix. -/
def firstDiff : List AgentStep → List AgentStep → Option Nat
  | s1 :: t1, s2 :: t2 =>
      if s1.input ≠ s2.input then some s1.step_id
      else if s1.output ≠ s2.output then some s1.step_id
      else firstDiff t1 t2
  | _, _ => none

/-- `ComparisonEngine.findDivergence`: first differing shared index, else the
last shared identifier when lengths differ (`steps1[minLen-1]?.step_id || 0`,
hence `0` when there is no shared step), else `null`. -/
def findDivergence (steps1 steps2 : List AgentStep) : Option Nat :=
  match firstDiff steps1 steps2 with
  | some sid => some sid
  | none =>
      if steps1.length ≠ steps2.length then
        match min steps1.length steps2.length with
        | 0 => some 0
        | n + 1 =>
          some (match steps1[n]? with | some s => s.step_id | none => 0)
      else none

/-- Equal input and output payloads, structurally. -/
def payloadEq (s t : AgentStep) : Prop := s.input = t.input ∧ s.output = t.output

instance (s t : AgentStep) : Decidable (payloadEq s t) :=
  inferInstanceAs (Decidable (_ ∧ _))

theorem firstDiff_eq_none {A B : List AgentStep}
    (h : ∀ i (hA : i < A.length) (hB : i < B.length),
      payloadEq (A.get ⟨i, hA⟩) (B.get ⟨i, hB⟩)) :
    firstDiff A B = none := by
  induction A generalizing B with
  | nil => cases B <;> rfl
  | cons a t1 ih =>
    cases B with
    | nil => rfl
    | cons b t2 =>
      have h0 := h 0 (by simp) (by simp)
      simp only [List.get] at h0
      rw [firstDiff, if_neg (by simp [h0.1]), if_neg (by simp [h0.2])]
      exact ih (fun i hA hB => h (i + 1) (by simpa using hA) (by simpa using hB))

theorem firstDiff_eq_first {A B : List AgentStep} {i : Nat}
    (hA : i < A.length) (hB : i < B.length)
    (hdiff : ¬ payloadEq (A.get ⟨i, hA⟩) (B.get ⟨i, hB⟩))
    (hbefore : ∀ j (hjA : j < A.length) (hjB : j < B.length), j < i →
      payloadEq (A.get ⟨j, hjA⟩) (B.get ⟨j, hjB⟩)) :
    firstDiff A B = some ((A.get ⟨i, hA⟩).step_id) := by
  induction A generalizing B i with
  | nil => exact absurd hA (by simp)
  | cons a t1 ih =>
    cases B with
    | nil => exact absurd hB (by simp)
    | cons b t2 =>
      cases i with
      | zero =>
        simp only [List.get] at hdiff ⊢
        rw [payloadEq, not_and_or] at hdiff
        rcases hdiff with hd | hd
        · rw [firstDiff, if_pos hd]
        · by_cases hin : a.input = b.input
          · rw [firstDiff, if_neg (by simpa using hin), if_pos hd]
          · rw [firstDiff, if_pos hin]
      | succ j =>
        have h0 := hbefore 0 (by simp) (by simp) (by omega)
        simp only [List.get] at h0
        rw [firstDiff, if_neg (by simp [h0.1]), if_neg (by simp [h0.2])]
        simp only [List.get] at hdiff ⊢
        exact ih (by simpa using hA) (by simpa using hB) hdiff
          (fun k hkA hkB hk =>
            hbefore (k + 1) (by simpa using hkA) (by simpa using hkB) (by omega))

/-- C4: the divergence point is the step identifier from run `A` at the first
shared index where input or output payloads differ structurally; when all
shared positions agree but the lengths differ (with at least one shared step)
it is the last shared identifier from `A`; when the runs have equal length and
agree everywhere, no divergence point is reported. -/
theorem findDivergence_spec (A B : List AgentStep) :
    (∀ i (hA : i < A.length) (hB : i < B.length),
      ¬ payloadEq (A.get ⟨i, hA⟩) (B.get ⟨i, hB⟩) →
      (∀ j (hjA : j < A.length) (hjB : j < B.length), j < i →
        payloadEq (A.get ⟨j, hjA⟩) (B.get ⟨j, hjB⟩)) →
      findDivergence A B = some ((A.get ⟨i, hA⟩).step_id)) ∧
    ((∀ i (hA : i < A.length) (hB : i < B.length),
        payloadEq (A.get ⟨i, hA⟩) (B.get ⟨i, hB⟩)) →
      A.length ≠ B.length →
      0 < min A.length B.length →
      findDivergence A B =
        (A[min A.length B.length - 1]?).map (fun s => s.step_id)) ∧
    (A.length = B.length →
      (∀ i (hA : i < A.length) (hB : i < B.length),
        payloadEq (A.get ⟨i, hA⟩) (B.get ⟨i, hB⟩)) →
      findDivergence A B = none) := by
  refine ⟨?_, ?_, ?_⟩
  · intro i hA hB hdiff hbefore
    rw [findDivergence, firstDiff_eq_first hA hB hdiff hbefore]
  · intro hall hne hmin
    rw [findDivergence, firstDiff_eq_none hall, if_pos hne]
    rcases hm : min A.length B.length with _ | n
    · omega
    · have hn : n < A.length := by omega
      simp only [Nat.add_sub_cancel]
      rw [List.getElem?_eq_getElem hn]
      rfl
  · intro heq hall
    rw [findDivergence, firstDiff_eq_none hall, if_neg (by simp [heq])]

/-- C4 witness: runs `[1,2,3]` and `[1,2']` (payloads differ at index 1)
diverge at identifier 2; on the claim's other branches, equal-prefix runs of
unequal length report the last shared identifier, and identical runs none. -/
theorem findDivergence_spec_witness :
    findDivergence
      [⟨1, 0, 'r' :: [], .null, .null, [], none, 'o' :: 'k' :: []⟩,
       ⟨2, 0, 'r' :: [], .num 1, .null, [], none, 'o' :: 'k' :: []⟩,
       ⟨3, 0, 'r' :: [], .null, .null, [], none, 'o' :: 'k' :: []⟩]
      [⟨1, 0, 'r' :: [], .null, .null, [], none, 'o' :: 'k' :: []⟩,
       ⟨2, 0, 'r' :: [], .num 2, .null, [], none, 'o' :: 'k' :: []⟩] = some 2 := by
  exact (findDivergence_spec _ _).1 1 (by decide) (by decide)
    (by decide) (by decide)

theorem alignSteps_getElem? (A B : List AgentStep) (i : Nat)
    (h : i < max A.length B.length) :
    (alignSteps A B)[i]? = some (alignEntry A[i]? B[i]?) := by
  rw [alignSteps, List.getElem?_map, List.getElem?_range h]
  rfl

/-- C5: the alignment list has length `max(|A|,|B|)`; at each shared index the
entry is `exact` when phases and input payloads agree, `phase` when phases
agree but inputs differ, `mismatch` when phases differ; one-sided positions
are `mismatch` with the absent side `null`. -/
theorem alignSteps_spec (A B : List AgentStep) :
    (alignSteps A B).length = max A.length B.length ∧
    (∀ i (hA : i < A.length) (hB : i < B.length),
      ((A.get ⟨i, hA⟩).phase = (B.get ⟨i, hB⟩).phase ∧
        (A.get ⟨i, hA⟩).input = (B.get ⟨i, hB⟩).input →
        (alignSteps A B)[i]? =
          some ⟨some (A.get ⟨i, hA⟩).step_id, some (B.get ⟨i, hB⟩).step_id, .exact⟩) ∧
      ((A.get ⟨i, hA⟩).phase = (B.get ⟨i, hB⟩).phase ∧
        (A.get ⟨i, hA⟩).input ≠ (B.get ⟨i, hB⟩).input →
        (alignSteps A B)[i]? =
          some ⟨some (A.get ⟨i, hA⟩).step_id, some (B.get ⟨i, hB⟩).step_id, .phase⟩) ∧
      ((A.get ⟨i, hA⟩).phase ≠ (B.get ⟨i, hB⟩).phase →
        (alignSteps A B)[i]? =
          some ⟨some (A.get ⟨i, hA⟩).step_id, some (B.get ⟨i, hB⟩).step_id, .mismatch⟩)) ∧
    (∀ i (hA : i < A.length), B.length ≤ i →
      (alignSteps A B)[i]? =
        some ⟨some (A.get ⟨i, hA⟩).step_id, none, .mismatch⟩) ∧
    (∀ i (hB : i < B.length), A.length ≤ i →
      (alignSteps A B)[i]? =
        some ⟨none, some (B.get ⟨i, hB⟩).step_id, .mismatch⟩) := by
  refine ⟨?_, ?_, ?_, ?_⟩
  · rw [alignSteps, List.length_map, List.length_range]
  · intro i hA hB
    have hmax : i < max A.length B.length := lt_max_of_lt_left hA
    have hgA : A[i]? = some (A.get ⟨i, hA⟩) := by
      rw [List.getElem?_eq_getElem hA]; rfl
    have hgB : B[i]? = some (B.get ⟨i, hB⟩) := by
      rw [List.getElem?_eq_getElem hB]; rfl
    refine ⟨?_, ?_, ?_⟩
    · intro hcond
      rw [alignSteps_getElem? A B i hmax, hgA, hgB, alignEntry, if_pos hcond]
    · intro hcond
      rw [alignSteps_getElem? A B i hmax, hgA, hgB, alignEntry,
        if_neg (by intro hc; exact hcond.2 hc.2), if_pos hcond.1]
    · intro hcond
      rw [alignSteps_getElem? A B i hmax, hgA, hgB, alignEntry,
        if_neg (by intro hc; exact hcond hc.1), if_neg hcond]
  · intro i hA hge
    have hmax : i < max A.length B.length := lt_max_of_lt_left hA
    have hgA : A[i]? = some (A.get ⟨i, hA⟩) := by
      rw [List.getElem?_eq_getElem hA]; rfl
    have hgB : B[i]? = none := List.getElem?_eq_none hge
    rw [alignSteps_getElem? A B i hmax, hgA, hgB, alignEntry]
  · intro i hB hge
    have hmax : i < max A.length B.length := lt_max_of_lt_right hB
    have hgB : B[i]? = some (B.get ⟨i, hB⟩) := by
      rw [List.getElem?_eq_getElem hB]; rfl
    have hgA : A[i]? = none := List.getElem?_eq_none hge
    rw [alignSteps_getElem? A B i hmax, hgA, hgB, alignEntry]

/-- C5 witness: aligning a 2-step run with a 1-step run of equal first
position yields `[exact, mismatch-with-null]`. -/
theorem alignSteps_spec_witness :
    (alignSteps
      [⟨1, 0, 'r' :: [], .null, .null, [], none, 'o' :: 'k' :: []⟩,
       ⟨2, 0, 't' :: [], .num 1, .null, [], none, 'o' :: 'k' :: []⟩]
      [⟨1, 0, 'r' :: [], .null, .null, [], none, 'o' :: 'k' :: []⟩]).length = 2 ∧
    (alignSteps
      [⟨1, 0, 'r' :: [], .null, .null, [], none, 'o' :: 'k' :: []⟩,
       ⟨2, 0, 't' :: [], .num 1, .null, [], none, 'o' :: 'k' :: []⟩]
      [⟨1, 0, 'r' :: [], .null, .null, [], none, 'o' :: 'k' :: []⟩])[0]? =
        some ⟨some 1, some 1, .exact⟩ ∧
    (alignSteps
      [⟨1, 0, 'r' :: [], .null, .null, [], none, 'o' :: 'k' :: []⟩,
       ⟨2, 0, 't' :: [], .num 1, .null, [], none, 'o' :: 'k' :: []⟩]
      [⟨1, 0, 'r' :: [], .null, .null, [], none, 'o' :: 'k' :: []⟩])[1]? =
        some ⟨some 2, none, .mismatch⟩ := by
  refine ⟨(alignSteps_spec _ _).1.trans (by decide),
    ((alignSteps_spec _ _).2.1 0 (by decide) (by decide)).1 (by decide),
    (alignSteps_spec _ _).2.2.1 1 (by decide) (by decide)⟩

/-! ## AnalysisEngine (src/unnamed/part_003) -/

/-- JavaScript `Array.prototype.findIndex` (with `-1` as `none`). -/
def findFirstIdx (p : AgentStep → Bool) : List AgentStep → Option Nat
  | [] => none
  | s :: t => if p s then some 0 else (findFirstIdx p t).map (· + 1)

structure RootCauseAnalysis where
  failureStepId : Nat
  causalChain : List Nat
  confidence : ℚ
  description : Str
  deriving DecidableEq

def failureDescription (sid : Nat) : Str :=
  ("Failure detected at step ".toList) ++ (Nat.repr sid).toList ++
  (". Preceding steps suggest context exhaustion or invalid tool usage.".toList)

/-- `AnalysisEngine.analyzeFailure`: first step with status `error`; causal
chain is the identifiers of steps `max(0, i-3) .. i-1` in order; fixed
confidence `0.8`. -/
def analyzeFailure (steps : List AgentStep) : Option RootCauseAnalysis :=
  match findFirstIdx (fun s => s.status = "error".toList) steps with
  | none => none
  | some i =>
      (steps[i]?).map (fun errorStep =>
        { failureStepId := errorStep.step_id
          causalChain := ((steps.take i).drop (i - 3)).map (fun s => s.step_id)
          confidence := 0.8
          description := failureDescription errorStep.step_id })

theorem findFirstIdx_eq_none {p : AgentStep → Bool} {l : List AgentStep}
    (h : ∀ x ∈ l, p x = false) : findFirstIdx p l = none := by
  induction l with
  | nil => rfl
  | cons a t ih =>
    rw [findFirstIdx, if_neg (by simp [h a (List.mem_cons_self _ _)]),
      ih (fun x hx => h x (List.mem_cons_of_mem _ hx))]
    rfl

theorem findFirstIdx_eq_first {p : AgentStep → Bool} {l : List AgentStep} {i : Nat}
    (hi : i < l.length) (hp : p (l.get ⟨i, hi⟩) = true)
    (hbefore : ∀ j (hj : j < l.length), j < i → p (l.get ⟨j, hj⟩) = false) :
    findFirstIdx p l = some i := by
  induction l generalizing i with
  | nil => exact absurd hi (by simp)
  | cons a t ih =>
    cases i with
    | zero => rw [findFirstIdx, if_pos (by simpa using hp)]
    | succ j =>
      have h0 : p a = false := by simpa using hbefore 0 (by simp) (by omega)
      rw [findFirstIdx, if_neg (by simp [h0])]
      rw [ih (by simpa using hi) (by simpa using hp)
        (fun k hk hlt => by simpa using hbefore (k + 1) (by simpa using hk) (by omega))]
      rfl

/-- C6: when step `i` is the first step with status `error`, root-cause
analysis reports it as the failure step, with causal chain the in-order
identifiers of the up to three immediately preceding steps, and confidence
`0.8`; when no step has status `error`, no root cause is reported. -/
theorem analyzeFailure_spec (steps : List AgentStep) :
    (∀ i (hi : i < steps.length),
      (steps.get ⟨i, hi⟩).status = "error".toList →
      (∀ j (hj : j < steps.length), j < i →
        (steps.get ⟨j, hj⟩).status ≠ "error".toList) →
      analyzeFailure steps = some
        { failureStepId := (steps.get ⟨i, hi⟩).step_id
          causalChain := ((steps.take i).drop (i - 3)).map (fun s => s.step_id)
          confidence := 0.8
          description := failureDescription (steps.get ⟨i, hi⟩).step_id }) ∧
    ((∀ s ∈ steps, s.status ≠ "error".toList) → analyzeFailure steps = none) := by
  constructor
  · intro i hi herr hbefore
    rw [analyzeFailure, findFirstIdx_eq_first hi (by simp only [decide_eq_true_eq]; exact herr)
      (fun j hj hlt => by simp only [decide_eq_false_iff_not]; exact hbefore j hj hlt)]
    dsimp only
    rw [List.getElem?_eq_getElem hi]
    rfl
  · intro hnone
    rw [analyzeFailure, findFirstIdx_eq_none
      (fun x hx => by simp only [decide_eq_false_iff_not]; simpa using hnone x hx)]

/-- C6 witness: in a 5-step run whose first error is step 5, the analysis
reports failure step 5, chain `[2, 3, 4]`, confidence `0.8`. -/
theorem analyzeFailure_spec_witness :
    analyzeFailure
      [⟨1, 0, "reason".toList, .null, .null, [], none, "ok".toList⟩,
       ⟨2, 0, "tool".toList, .null, .null, [], none, "ok".toList⟩,
       ⟨3, 0, "tool".toList, .null, .null, [], none, "retry".toList⟩,
       ⟨4, 0, "tool".toList, .null, .null, [], none, "ok".toList⟩,
       ⟨5, 0, "tool".toList, .null, .null, [], none, "error".toList⟩] =
      some { failureStepId := 5, causalChain := [2, 3, 4], confidence := 0.8,
             description := failureDescription 5 } := by
  exact (analyzeFailure_spec _).1 4 (by decide) (by decide) (by decide)

def jlookup : JObject → Str → Option JValue
  | .nil, _ => none
  | .cons k v t, key => if k = key then some v else jlookup t key

/-- `step.input.toolName` when it is a truthy string (JS: the empty string is
falsy and yields no tags).  A non-string truthy field would make the source
throw on `.includes`; such payloads are outside the claims. -/
def toolNameOf (input : JValue) : Option Str :=
  match input with
  | .obj kvs =>
      match jlookup kvs ("toolName".toList) with
      | some (.str s) => if s.isEmpty then none else some s
      | _ => none
  | _ => none

/-- Tool-name classifier, exploratory side: contains `search`, `ls` or `read`. -/
def exploreName (tn : Str) : Bool :=
  isSubstrOf ("search".toList) tn || isSubstrOf ("ls".toList) tn ||
  isSubstrOf ("read".toList) tn

/-- Tool-name classifier, committing side: contains `write` or `edit`. -/
def commitName (tn : Str) : Bool :=
  isSubstrOf ("write".toList) tn || isSubstrOf ("edit".toList) tn

def retryTagOf (prev : Option AgentStep) (s : AgentStep) : List Str :=
  if s.status = "retry".toList then
    match prev with
    | some p => if p.status = "retry".toList then ["retry-loop".toList] else []
    | none => []
  else []

def toolTagOf (s : AgentStep) : List Str :=
  if s.phase = "tool".toList then
    match toolNameOf s.input with
    | some tn =>
        if exploreName tn then ["exploration".toList]
        else if commitName tn then ["commitment".toList]
        else []
    | none => []
  else []

/-- Tags pushed for one step of the `computeSemanticLabels` loop
(`prev = steps[i-1]`): the retry-loop check first, then the tool-name
classifier. -/
def stepTags (prev : Option AgentStep) (s : AgentStep) : List Str :=
  retryTagOf prev s ++ toolTagOf s

def semanticLabelsFrom (prev : Option AgentStep) :
    List AgentStep → List (Nat × List Str)
  | [] => []
  | s :: t =>
      if (stepTags prev s).isEmpty then semanticLabelsFrom (some s) t
      else (s.step_id, stepTags prev s) :: semanticLabelsFrom (some s) t

/-- `AnalysisEngine.computeSemanticLabels` as the insertion-ordered list of
`(step_id, tags)` pairs the source stores in its `Map` (it is pure: the step
records themselves are not modified). -/
def computeSemanticLabels (steps : List AgentStep) : List (Nat × List Str) :=
  semanticLabelsFrom none steps

theorem semanticLabelsFrom_eq (prev : Option AgentStep) (steps : List AgentStep) :
    semanticLabelsFrom prev steps =
      ((prev :: steps.map some).zip steps).filterMap
        (fun ps => if (stepTags ps.1 ps.2).isEmpty then none
                   else some (ps.2.step_id, stepTags ps.1 ps.2)) := by
  induction steps generalizing prev with
  | nil => rfl
  | cons s t ih =>
    rw [semanticLabelsFrom]
    by_cases h : (stepTags prev s).isEmpty
    · rw [if_pos h, ih (some s), List.map_cons, List.zip_cons_cons,
        List.filterMap_cons, if_pos h]
    · rw [if_neg h, ih (some s), List.map_cons, List.zip_cons_cons,
        List.filterMap_cons, if_neg h]

/-- C7 counterexample: a tool step whose tool name `read_write` contains both
`read` and `write` is tagged `exploration` only — the claim's "tags it
`commitment` when its tool name contains write or edit" fails, because the
source checks the exploratory class first (`else if`). -/
theorem computeSemanticLabels_cex :
    commitName ("read_write".toList) = true ∧
    computeSemanticLabels
      [⟨1, 0, "tool".toList,
        .obj (.cons ("toolName".toList) (.str ("read_write".toList)) .nil),
        .null, [], none, "ok".toList⟩] =
      [(1, ["exploration".toList])] := by
  constructor
  · decide
  · decide

theorem retry_notin_toolTagOf (s : AgentStep) :
    "retry-loop".toList ∉ toolTagOf s := by
  intro h
  rw [toolTagOf.eq_def] at h
  split at h
  case isFalse => simp at h
  case isTrue =>
    rcases htn : toolNameOf s.input with _ | tn <;> rw [htn] at h
    · simp at h
    · dsimp only at h
      split at h
      · revert h; decide
      · split at h
        · revert h; decide
        · simp at h

theorem stepTags_retry_mem (prev : Option AgentStep) (s : AgentStep) :
    "retry-loop".toList ∈ stepTags prev s ↔
      s.status = "retry".toList ∧ ∃ p, prev = some p ∧ p.status = "retry".toList := by
  rw [stepTags, List.mem_append]
  constructor
  · intro h
    rcases h with h | h
    · rw [retryTagOf.eq_def] at h
      split at h
      case isFalse => simp at h
      case isTrue hst =>
        cases prev with
        | none => simp at h
        | some p =>
          dsimp only at h
          split at h
          next hps => exact ⟨hst, p, rfl, hps⟩
          next hps => simp at h
    · exact absurd h (retry_notin_toolTagOf s)
  · rintro ⟨hst, p, rfl, hps⟩
    left
    rw [retryTagOf.eq_def, if_pos hst]
    simp [hps]

theorem mem_retryTagOf_eq {x : Str} {prev : Option AgentStep} {s : AgentStep}
    (h : x ∈ retryTagOf prev s) : x = "retry-loop".toList := by
  rw [retryTagOf.eq_def] at h
  split at h
  case isFalse => simp at h
  case isTrue =>
    cases prev with
    | none => simp at h
    | some p =>
      dsimp only at h
      split at h
      · simpa using h
      · simp at h

theorem stepTags_explore_mem (prev : Option AgentStep) (s : AgentStep) :
    "exploration".toList ∈ stepTags prev s ↔
      s.phase = "tool".toList ∧
      ∃ tn, toolNameOf s.input = some tn ∧ exploreName tn = true := by
  rw [stepTags, List.mem_append]
  constructor
  · intro h
    rcases h with h | h
    · exact absurd (mem_retryTagOf_eq h) (by decide)
    · rw [toolTagOf.eq_def] at h
      split at h
      case isFalse => simp at h
      case isTrue hph =>
        rcases htn : toolNameOf s.input with _ | tn <;> rw [htn] at h
        · simp at h
        · dsimp only at h
          split at h
          next hex => exact ⟨hph, tn, rfl, hex⟩
          next hex =>
            exfalso
            split at h
            · revert h; decide
            · simp at h
  · rintro ⟨hph, tn, htn, hex⟩
    right
    rw [toolTagOf.eq_def, if_pos hph, htn]
    simp [hex]

theorem stepTags_commit_mem (prev : Option AgentStep) (s : AgentStep) :
    "commitment".toList ∈ stepTags prev s ↔
      s.phase = "tool".toList ∧
      ∃ tn, toolNameOf s.input = some tn ∧
        commitName tn = true ∧ exploreName tn = false := by
  rw [stepTags, List.mem_append]
  constructor
  · intro h
    rcases h with h | h
    · exact absurd (mem_retryTagOf_eq h) (by decide)
    · rw [toolTagOf.eq_def] at h
      split at h
      case isFalse => simp at h
      case isTrue hph =>
        rcases htn : toolNameOf s.input with _ | tn <;> rw [htn] at h
        · simp at h
        · dsimp only at h
          split at h
          next hex => exact absurd h (by decide)
          next hex =>
            split at h
            next hco =>
              exact ⟨hph, tn, rfl, hco, by simpa using hex⟩
            next hco => simp at h
  · rintro ⟨hph, tn, htn, hco, hex⟩
    right
    rw [toolTagOf.eq_def, if_pos hph, htn]
    dsimp only
    rw [if_neg (by simp [hex]), if_pos hco]
    simp

/-- C7 (amended): the label map lists, in step order, exactly the steps with a
nonempty tag list, where a step is tagged `retry-loop` iff its status is
`retry` and the immediately preceding step's status is `retry` (two or more
consecutive retries ending here), is tagged `exploration` iff it is a
tool-phase step whose tool name contains `search`, `ls` or `read`, and is
tagged `commitment` iff it is a tool-phase step whose tool name contains
`write` or `edit` and does not match the exploratory class (the source checks
exploration first).  The computation is pure — the step records are not
modified. -/
theorem computeSemanticLabels_spec (steps : List AgentStep)
    (prev : Option AgentStep) (s : AgentStep) :
    computeSemanticLabels steps =
      ((none :: steps.map some).zip steps).filterMap
        (fun ps => if (stepTags ps.1 ps.2).isEmpty then none
                   else some (ps.2.step_id, stepTags ps.1 ps.2)) ∧
    ("retry-loop".toList ∈ stepTags prev s ↔
      s.status = "retry".toList ∧ ∃ p, prev = some p ∧ p.status = "retry".toList) ∧
    ("exploration".toList ∈ stepTags prev s ↔
      s.phase = "tool".toList ∧
      ∃ tn, toolNameOf s.input = some tn ∧ exploreName tn = true) ∧
    ("commitment".toList ∈ stepTags prev s ↔
      s.phase = "tool".toList ∧
      ∃ tn, toolNameOf s.input = some tn ∧
        commitName tn = true ∧ exploreName tn = false) :=
  ⟨semanticLabelsFrom_eq none steps, stepTags_retry_mem prev s,
    stepTags_explore_mem prev s, stepTags_commit_mem prev s⟩

/-- C7 witness: a run with two consecutive retries, a search tool step and a
write tool step; the second retry is tagged `retry-loop`, the search step
`exploration`, the write step `commitment`. -/
theorem computeSemanticLabels_spec_witness :
    computeSemanticLabels
      [⟨1, 0, "reason".toList, .null, .null, [], none, "retry".toList⟩,
       ⟨2, 0, "reason".toList, .null, .null, [], none, "retry".toList⟩,
       ⟨3, 0, "tool".toList,
        .obj (.cons ("toolName".toList) (.str ("search_code".toList)) .nil),
        .null, [], none, "ok".toList⟩,
       ⟨4, 0, "tool".toList,
        .obj (.cons ("toolName".toList) (.str ("edit_file".toList)) .nil),
        .null, [], none, "ok".toList⟩] =
      [(2, ["retry-loop".toList]),
       (3, ["exploration".toList]),
       (4, ["commitment".toList])] := by
  rw [(computeSemanticLabels_spec
      [⟨1, 0, "reason".toList, .null, .null, [], none, "retry".toList⟩,
       ⟨2, 0, "reason".toList, .null, .null, [], none, "retry".toList⟩,
       ⟨3, 0, "tool".toList,
        .obj (.cons ("toolName".toList) (.str ("search_code".toList)) .nil),
        .null, [], none, "ok".toList⟩,
       ⟨4, 0, "tool".toList,
        .obj (.cons ("toolName".toList) (.str ("edit_file".toList)) .nil),
        .null, [], none, "ok".toList⟩] none
      ⟨1, 0, [], .null, .null, [], none, []⟩).1]
  decide

/-! ## CounterfactualEngine (src/vscode-extension/src/engines/CounterfactualEngine.ts)

Files are modelled at the structured level (`meta.json` holds a `RunMeta`,
`steps.jsonl` holds the step list, one step per line); the file system is an
association list from path to content, `fs.writeFileSync` is upsert. -/

inductive FileContent where
  | metaFile (m : RunMeta)
  | stepsFile (steps : List AgentStep)
  deriving DecidableEq

abbrev FS := List (Str × FileContent)

def fsLookup : FS → Str → Option FileContent
  | [], _ => none
  | (p, c) :: t, q => if p = q then some c else fsLookup t q

def fsWrite : FS → Str → FileContent → FS
  | [], p, c => [(p, c)]
  | (p0, c0) :: t, p, c =>
      if p0 = p then (p0, c) :: t else (p0, c0) :: fsWrite t p c

/-- `path.dirname`: everything before the last `/` (claims do not depend on
its edge cases; it only shapes the fresh directory name). -/
def dirname (p : Str) : Str :=
  (((p.reverse).dropWhile (fun c => !(c = '/'))).drop 1).reverse

/-- The fresh directory name `run_${Date.now()}_sim`; `Date.now()` is passed
in as `now`. -/
def simRunId (now : Nat) : Str :=
  ("run_".toList) ++ (Nat.repr now).toList ++ ("_sim".toList)

structure Modification where
  input : Option JValue := none
  output : Option JValue := none
  deriving DecidableEq

def objHasKey (o : JObject) (k : Str) : Bool := (jlookup o k).isSome

def overrideEntries : JObject → JObject → JObject
  | .nil, _ => .nil
  | .cons k v t, b => .cons k ((jlookup b k).getD v) (overrideEntries t b)

def newEntries : JObject → JObject → JObject
  | _, .nil => .nil
  | a, .cons k v t =>
      if objHasKey a k then newEntries a t else .cons k v (newEntries a t)

def objAppend : JObject → JObject → JObject
  | .nil, b => b
  | .cons k v t, b => .cons k v (objAppend t b)

/-- JS object spread `{...a, ...b}`: `a`'s keys in order with values
overridden by `b` where present, then `b`'s new keys in order. -/
def spreadObj (a b : JObject) : JObject :=
  objAppend (overrideEntries a b) (newEntries a b)

/-- `{ ...payload, ...modPayload }` guarded by JS truthiness of the
modification (absent means unchanged).  Step payloads are structured maps per
the schema, so both sides are objects. -/
def applyMod (v : JValue) (m : Option JValue) : JValue :=
  match m with
  | none => v
  | some mv =>
      match v, mv with
      | .obj a, .obj b => .obj (spreadObj a b)
      | _, _ => v

/-- `CounterfactualEngine.createSimulation`.  Mirrors the source order: the
new `meta.json` is written before the pivot lookup, so a missing pivot
(`throw new Error('Step not found')`, the `none` result) still leaves the
written metadata behind. -/
def createSimulation (fs : FS) (originalRun : RunArtifacts) (stepId : Nat)
    (mod : Modification) (now : Nat) : FS × Option Str :=
  let parentDir := dirname originalRun.path
  let newRunPath := parentDir ++ ('/' :: simRunId now)
  let meta' := { originalRun.meta with
    run_id := simRunId now
    tags := ["simulation".toList, ("from:".toList) ++ originalRun.meta.run_id] }
  let fs1 := fsWrite fs (newRunPath ++ ("/meta.json".toList)) (.metaFile meta')
  match findFirstIdx (fun s => s.step_id == stepId) originalRun.steps with
  | none => (fs1, none)
  | some splitIndex =>
      match originalRun.steps[splitIndex]? with
      | none => (fs1, none)
      | some orig =>
          let keptSteps := originalRun.steps.take splitIndex
          let targetStep := { orig with
            input := applyMod orig.input mod.input
            output := applyMod orig.output mod.output
            status := "retry".toList }
          let fs2 := fsWrite fs1 (newRunPath ++ ("/steps.jsonl".toList))
            (.stepsFile (keptSteps ++ [targetStep]))
          (fs2, some newRunPath)

theorem fsLookup_fsWrite_eq (fs : FS) (p : Str) (c : FileContent) :
    fsLookup (fsWrite fs p c) p = some c := by
  induction fs with
  | nil => simp [fsWrite, fsLookup]
  | cons e t ih =>
    rcases e with ⟨p0, c0⟩
    by_cases h : p0 = p
    · rw [fsWrite, if_pos h, fsLookup, if_pos h]
    · rw [fsWrite, if_neg h, fsLookup, if_neg h, ih]

theorem fsLookup_fsWrite_ne (fs : FS) {p q : Str} (c : FileContent)
    (h : p ≠ q) : fsLookup (fsWrite fs p c) q = fsLookup fs q := by
  induction fs with
  | nil => simp [fsWrite, fsLookup, h]
  | cons e t ih =>
    rcases e with ⟨p0, c0⟩
    by_cases h0 : p0 = p
    · subst h0
      rw [fsWrite, if_pos rfl, fsLookup, if_neg h, fsLookup, if_neg h]
    · rw [fsWrite, if_neg h0, fsLookup, fsLookup, ih]

/-- C8: with the pivot step identifier present at (first) position `i`, and
the two fresh file paths not yet existing (the directory name is minted from
`Date.now()`), `createSimulation` produces a new run directory whose metadata
is tagged `simulation` and `from:<originating run id>`, whose step log holds
exactly the steps strictly before the pivot verbatim plus the pivot with the
modification spread in and status `retry` — and every pre-existing file, in
particular every artifact of the source run, is unchanged. -/
theorem createSimulation_spec (fs : FS) (run : RunArtifacts) (stepId : Nat)
    (mod : Modification) (now : Nat) (i : Nat) (orig : AgentStep)
    (hidx : findFirstIdx (fun s => s.step_id == stepId) run.steps = some i)
    (horig : run.steps[i]? = some orig)
    (hfresh1 : fsLookup fs
      ((dirname run.path ++ ('/' :: simRunId now)) ++ ("/meta.json".toList)) = none)
    (hfresh2 : fsLookup fs
      ((dirname run.path ++ ('/' :: simRunId now)) ++ ("/steps.jsonl".toList)) = none) :
    (createSimulation fs run stepId mod now).2 =
      some (dirname run.path ++ ('/' :: simRunId now)) ∧
    fsLookup (createSimulation fs run stepId mod now).1
      ((dirname run.path ++ ('/' :: simRunId now)) ++ ("/steps.jsonl".toList)) =
      some (.stepsFile (run.steps.take i ++
        [{ orig with
            input := applyMod orig.input mod.input
            output := applyMod orig.output mod.output
            status := "retry".toList }])) ∧
    fsLookup (createSimulation fs run stepId mod now).1
      ((dirname run.path ++ ('/' :: simRunId now)) ++ ("/meta.json".toList)) =
      some (.metaFile { run.meta with
        run_id := simRunId now
        tags := ["simulation".toList, ("from:".toList) ++ run.meta.run_id] }) ∧
    (∀ q c, fsLookup fs q = some c →
      fsLookup (createSimulation fs run stepId mod now).1 q = some c) := by
  have hne : (dirname run.path ++ ('/' :: simRunId now)) ++ ("/meta.json".toList) ≠
      (dirname run.path ++ ('/' :: simRunId now)) ++ ("/steps.jsonl".toList) := by
    intro h
    have := List.append_cancel_left h
    simp at this
  rw [createSimulation]
  rw [hidx]
  dsimp only
  rw [horig]
  dsimp only
  refine ⟨rfl, ?_, ?_, ?_⟩
  · rw [fsLookup_fsWrite_eq]
  · rw [fsLookup_fsWrite_ne _ _ (fun h => hne h.symm), fsLookup_fsWrite_eq]
  · intro q c hq
    have hq1 : q ≠ (dirname run.path ++ ('/' :: simRunId now)) ++ ("/meta.json".toList) := by
      intro h; rw [h, hfresh1] at hq; exact Option.noConfusion hq
    have hq2 : q ≠ (dirname run.path ++ ('/' :: simRunId now)) ++ ("/steps.jsonl".toList) := by
      intro h; rw [h, hfresh2] at hq; exact Option.noConfusion hq
    rw [fsLookup_fsWrite_ne _ _ (fun h => hq2 h.symm),
      fsLookup_fsWrite_ne _ _ (fun h => hq1 h.symm)]
    exact hq

/-- C8 witness: branching a two-step run at step 2 with a modified input
produces a fresh directory holding step 1 verbatim plus step 2 with merged
input and status `retry`, leaving the source run's two files untouched. -/
theorem createSimulation_spec_witness :
    (createSimulation
      [(("/runs/run_a/meta.json".toList),
        .metaFile ⟨"run_a".toList, "1".toList, "m".toList, 0, [], 0, "t".toList, []⟩),
       (("/runs/run_a/steps.jsonl".toList),
        .stepsFile
          [⟨1, 0, "reason".toList, .obj (.cons ("p".toList) (.str ("hi".toList)) .nil),
            .null, [], none, "ok".toList⟩,
           ⟨2, 0, "tool".toList, .obj (.cons ("q".toList) (.num 1) .nil),
            .null, [], none, "ok".toList⟩])]
      ⟨⟨"run_a".toList, "1".toList, "m".toList, 0, [], 0, "t".toList, []⟩,
       [⟨1, 0, "reason".toList, .obj (.cons ("p".toList) (.str ("hi".toList)) .nil),
         .null, [], none, "ok".toList⟩,
        ⟨2, 0, "tool".toList, .obj (.cons ("q".toList) (.num 1) .nil),
         .null, [], none, "ok".toList⟩],
       "/runs/run_a".toList⟩
      2 ⟨some (.obj (.cons ("q".toList) (.num 9) .nil)), none⟩ 7).2 =
      some ("/runs/run_7_sim".toList) ∧
    fsLookup (createSimulation
      [(("/runs/run_a/meta.json".toList),
        .metaFile ⟨"run_a".toList, "1".toList, "m".toList, 0, [], 0, "t".toList, []⟩),
       (("/runs/run_a/steps.jsonl".toList),
        .stepsFile
          [⟨1, 0, "reason".toList, .obj (.cons ("p".toList) (.str ("hi".toList)) .nil),
            .null, [], none, "ok".toList⟩,
           ⟨2, 0, "tool".toList, .obj (.cons ("q".toList) (.num 1) .nil),
            .null, [], none, "ok".toList⟩])]
      ⟨⟨"run_a".toList, "1".toList, "m".toList, 0, [], 0, "t".toList, []⟩,
       [⟨1, 0, "reason".toList, .obj (.cons ("p".toList) (.str ("hi".toList)) .nil),
         .null, [], none, "ok".toList⟩,
        ⟨2, 0, "tool".toList, .obj (.cons ("q".toList) (.num 1) .nil),
         .null, [], none, "ok".toList⟩],
       "/runs/run_a".toList⟩
      2 ⟨some (.obj (.cons ("q".toList) (.num 9) .nil)), none⟩ 7).1
      ("/runs/run_a/steps.jsonl".toList) =
      some (.stepsFile
        [⟨1, 0, "reason".toList, .obj (.cons ("p".toList) (.str ("hi".toList)) .nil),
          .null, [], none, "ok".toList⟩,
         ⟨2, 0, "tool".toList, .obj (.cons ("q".toList) (.num 1) .nil),
          .null, [], none, "ok".toList⟩]) := by
  constructor
  · exact (createSimulation_spec _ _ _ _ _ 1
      ⟨2, 0, "tool".toList, .obj (.cons ("q".toList) (.num 1) .nil),
       .null, [], none, "ok".toList⟩
      (by decide) (by decide) (by decide) (by decide)).1
  · exact (createSimulation_spec _ _ _ _ _ 1
      ⟨2, 0, "tool".toList, .obj (.cons ("q".toList) (.num 1) .nil),
       .null, [], none, "ok".toList⟩
      (by decide) (by decide) (by decide) (by decide)).2.2.2
      _ _ (by decide)

/-! ## RunLoader (src/vscode-extension/src/data/RunLoader.ts)

`steps.jsonl` is split on `'\n'`, blank lines are filtered, each line runs
through `JSON.parse` (a platform decoder, passed in here as `parseStep`), and
lines that fail to parse are warned about and dropped.  `RunArtifacts` carries
no partial indicator of any kind. -/

/-- JavaScript `String.prototype.split('\n')`. -/
def splitNl : Str → List Str
  | [] => [[]]
  | c :: t =>
      if c = '\n' then [] :: splitNl t
      else
        match splitNl t with
        | [] => [[c]]
        | l :: ls => (c :: l) :: ls

/-- `line.trim().length > 0`. -/
def nonBlank (l : Str) : Bool := !(l.all Char.isWhitespace)

/-- The step-log portion of `RunLoader.load`. -/
def loadSteps (parseStep : Str → Option AgentStep) (content : Str) :
    List AgentStep :=
  (((splitNl content).filter nonBlank).filterMap parseStep)

theorem splitNl_ne_nil (s : Str) : splitNl s ≠ [] := by
  cases s with
  | nil => simp [splitNl]
  | cons c t =>
    rw [splitNl]
    by_cases h : c = '\n'
    · simp [h]
    · rw [if_neg h]
      cases splitNl t <;> simp

/-- C9 (amended): when the final line of the step log fails to parse, loading
succeeds and returns exactly the run loaded from the lines before the final
line — every parseable nonblank earlier line is loaded, every unparseable
line (not only the final one) is dropped, and no partial indicator exists in
the result type. -/
theorem loadSteps_spec (parseStep : Str → Option AgentStep) (content : Str)
    (hne : splitNl content ≠ [])
    (hfail : parseStep ((splitNl content).getLast hne) = none) :
    loadSteps parseStep content =
      (((splitNl content).dropLast.filter nonBlank).filterMap parseStep) ∧
    (∀ l ∈ (splitNl content).dropLast, nonBlank l = true →
      ∀ s, parseStep l = some s → s ∈ loadSteps parseStep content) := by
  constructor
  · rw [loadSteps]
    conv_lhs => rw [← List.dropLast_append_getLast hne]
    rw [List.filter_append, List.filterMap_append]
    by_cases hb : nonBlank ((splitNl content).getLast hne)
    · rw [List.filter_cons_of_pos (by simpa using hb), List.filter_nil,
        List.filterMap_cons_none hfail, List.filterMap_nil, List.append_nil]
    · rw [List.filter_cons_of_neg (by simpa using hb), List.filter_nil,
        List.filterMap_nil, List.append_nil]
  · intro l hl hnb s hp
    exact List.mem_filterMap.mpr
      ⟨l, List.mem_filter.mpr
        ⟨(List.dropLast_prefix (splitNl content)).subset hl, hnb⟩, hp⟩

/-- A toy line decoder standing in for `JSON.parse` of a step record: only the
line `ok` decodes (to a fixed step); every other line throws. -/
def parseToy : Str → Option AgentStep := fun l =>
  if l = "ok".toList then
    some ⟨1, 0, "reason".toList, .null, .null, [], none, "ok".toList⟩
  else none

/-- C9 counterexample: a step log `bad\nok\nbad2` whose final line fails to
parse is not loaded "minus that line with all lines before it loaded
unchanged": the earlier unparseable line `bad` is silently dropped too — two
nonblank lines precede the final line but only one step is loaded (and
`RunArtifacts` offers no partial indicator to report). -/
theorem loadSteps_cex :
    parseToy ("bad2".toList) = none ∧
    loadSteps parseToy ("bad\nok\nbad2".toList) =
      [⟨1, 0, "reason".toList, .null, .null, [], none, "ok".toList⟩] ∧
    (((splitNl ("bad\nok\nbad2".toList)).dropLast.filter nonBlank).length = 2) := by
  refine ⟨by decide, by decide, by decide⟩

/-- C9 witness: applying the amended claim to the log `ok\nbad2`. -/
theorem loadSteps_spec_witness :
    loadSteps parseToy ("ok\nbad2".toList) =
      (((splitNl ("ok\nbad2".toList)).dropLast.filter nonBlank).filterMap parseToy) :=
  (loadSteps_spec parseToy ("ok\nbad2".toList) (by decide) (by decide)).1

/-! ## Replay engine (src/src/core/replay-engine.ts)

`types.ts` and `trace-recorder.ts` are not under src/: the trace data model,
`createInitialState` and the replay-side recorder are modelled from the spec,
as noted on each definition.  The replay engine itself is translated from
`replay-engine.ts`. -/

structure AgentState where
  status : Str
  currentStep : Nat
  goal : Str
  memory : JValue := .null
  deriving DecidableEq

/-- Modelled from the spec: `createInitialState(taskId, goal)` from the
missing `types.ts` — a fresh agent state before any step.  Its exact field
values only reach the final comparison for traces with no steps. -/
def createInitialState (_taskId : Str) (goal : Str) : AgentState :=
  { status := "running".toList, currentStep := 0, goal := goal, memory := .null }

structure RStep where
  stepNumber : Nat
  stepType : Str
  input : JValue
  output : JValue
  stateSnapshot : AgentState
  deriving DecidableEq

structure TraceMetadata where
  toolsUsed : List Str
  replayedFrom : Option Str := none
  deriving DecidableEq

structure Trace where
  traceId : Str
  agentId : Str
  taskId : Str
  status : Str
  steps : List RStep
  finalState : Option AgentState := none
  metadata : TraceMetadata
  deriving DecidableEq

inductive DivKind where
  | state_mismatch
  | output_mismatch
  | missing_step
  | extra_step
  deriving DecidableEq

structure Divergence where
  stepNumber : Nat
  dkind : DivKind
  expected : JValue
  actual : JValue
  message : Str
  deriving DecidableEq

/-- The key final-snapshot fields compared by `compareStates`
(`status`, `currentStep`, `goal`), as `JSON.stringify`-comparable values. -/
def keyFieldVals (st : AgentState) : List (Str × JValue) :=
  [("status".toList, .str st.status),
   ("currentStep".toList, .num st.currentStep),
   ("goal".toList, .str st.goal)]

/-- The `for (const key of keysToCompare)` loop: on the first differing field
it pushes one `state_mismatch` divergence and returns `false`. -/
def compareFields (stepNumber : Nat) :
    List (Str × JValue) → List (Str × JValue) → Bool × List Divergence
  | [], _ => (true, [])
  | _ :: _, [] => (true, [])
  | (k, v1) :: t1, (_, v2) :: t2 =>
      if v1 ≠ v2 then
        (false, [⟨stepNumber, .state_mismatch, v1, v2,
          ("State mismatch in field: ".toList) ++ k⟩])
      else compareFields stepNumber t1 t2

/-- `ReplayEngine.compareStates` (an absent `state1` returns `false` without
recording a divergence). -/
def compareStates (stepNumber : Nat) (state1 : Option AgentState)
    (state2 : AgentState) : Bool × List Divergence :=
  match state1 with
  | none => (false, [])
  | some st1 => compareFields stepNumber (keyFieldVals st1) (keyFieldVals state2)

/-- Modelled from the spec: the replay-side `TraceRecorder` of the missing
`trace-recorder.ts`.  Per the spec's replay-trace section, the engine "drives
a secondary recorder that appends a step for each original step, preserving
phase, input, output, and snapshot verbatim", so `recordStep` appends exactly
one step per call and `finalize` seals the accumulated list. -/
def replayRecordStep (acc : List RStep) (orig : RStep) : List RStep :=
  acc ++ [{ orig with stepNumber := acc.length + 1 }]

structure ReplayResult where
  success : Bool
  stepCountOriginal : Nat
  stepCountReplay : Nat
  stepCountMatch : Bool
  stateMatch : Bool
  finalState : AgentState
  divergences : List Divergence
  replaySteps : List RStep
  deriving DecidableEq

/-- `ReplayEngine.replay`: seed the replay state from the first snapshot,
record one replayed step per original step while copying its snapshot, then
compare `trace.finalState || lastSnapshot` against the replay state. -/
def replay (t : Trace) : ReplayResult :=
  let st0 := match t.steps.head? with
    | some firstStep => firstStep.stateSnapshot
    | none => createInitialState t.taskId []
  let replaySteps := t.steps.foldl replayRecordStep []
  let replayState := match t.steps.getLast? with
    | some last => last.stateSnapshot
    | none => st0
  let cmp := compareStates t.steps.length
    (match t.finalState with
     | some fs => some fs
     | none => (t.steps.getLast?).map (fun s => s.stateSnapshot))
    replayState
  { success := cmp.2.isEmpty
    stepCountOriginal := t.steps.length
    stepCountReplay := replaySteps.length
    stepCountMatch := t.steps.length == replaySteps.length
    stateMatch := cmp.1
    finalState := replayState
    divergences := cmp.2
    replaySteps := replaySteps }

theorem foldl_replayRecordStep_length (l : List RStep) :
    ∀ acc : List RStep, (l.foldl replayRecordStep acc).length = acc.length + l.length := by
  induction l with
  | nil => intro acc; simp
  | cons s t ih =>
    intro acc
    rw [List.foldl_cons, ih, replayRecordStep]
    simp
    omega

theorem compareFields_self (n : Nat) (kv : List (Str × JValue)) :
    compareFields n kv kv = (true, []) := by
  induction kv with
  | nil => rfl
  | cons e t ih =>
    rcases e with ⟨k, v⟩
    rw [compareFields, if_neg (by simp)]
    exact ih

/-- Modelled from the spec: what makes a trace "recorded".  A recorded run
has at least one step, and the state sealed into `finalState` at `stop` — if
present — is the state whose snapshot the final step recorded, so its key
fields agree with the last snapshot. -/
def WellRecorded (t : Trace) : Prop :=
  t.steps ≠ [] ∧
  ∀ fs, t.finalState = some fs →
    ∀ last, t.steps.getLast? = some last →
      keyFieldVals fs = keyFieldVals last.stateSnapshot

/-- C2: replaying a recorded trace unmodified against itself yields zero
divergences, a replay step count equal to the original step count, and equal
final-snapshot key fields (`stateMatch`). -/
theorem replay_identity (t : Trace) (h : WellRecorded t) :
    (replay t).divergences = [] ∧
    (replay t).stepCountReplay = (replay t).stepCountOriginal ∧
    (replay t).stepCountMatch = true ∧
    (replay t).stateMatch = true ∧
    (replay t).success = true := by
  obtain ⟨hne, hfs⟩ := h
  obtain ⟨last, hlast⟩ : ∃ last, t.steps.getLast? = some last := by
    cases hl : t.steps.getLast? with
    | some last => exact ⟨last, rfl⟩
    | none => exact absurd (List.getLast?_eq_none_iff.mp hl) hne
  have hcmp : compareStates t.steps.length
      (match t.finalState with
       | some fs => some fs
       | none => (t.steps.getLast?).map (fun s => s.stateSnapshot))
      (match t.steps.getLast? with
       | some l => l.stateSnapshot
       | none => match t.steps.head? with
         | some firstStep => firstStep.stateSnapshot
         | none => createInitialState t.taskId []) = (true, []) := by
    rw [hlast]
    cases hf : t.finalState with
    | none =>
      show compareStates t.steps.length (some last.stateSnapshot) last.stateSnapshot = _
      exact compareFields_self _ _
    | some fs =>
      show compareStates t.steps.length (some fs) last.stateSnapshot = _
      show compareFields t.steps.length (keyFieldVals fs)
        (keyFieldVals last.stateSnapshot) = _
      rw [hfs fs hf last hlast]
      exact compareFields_self _ _
  rw [replay]
  dsimp only
  rw [hcmp, foldl_replayRecordStep_length]
  simp

/-- C2 witness: a concrete one-step recorded trace replays with zero
divergences, matching step counts and matching key state fields. -/
theorem replay_identity_witness :
    (replay
      { traceId := "t1".toList, agentId := "a".toList, taskId := "k".toList,
        status := "completed".toList,
        steps := [⟨1, "llm".toList, .null, .null,
          ⟨"completed".toList, 1, "g".toList, .null⟩⟩],
        finalState := some ⟨"completed".toList, 1, "g".toList, .null⟩,
        metadata := ⟨[], none⟩ }).divergences = [] ∧
    (replay
      { traceId := "t1".toList, agentId := "a".toList, taskId := "k".toList,
        status := "completed".toList,
        steps := [⟨1, "llm".toList, .null, .null,
          ⟨"completed".toList, 1, "g".toList, .null⟩⟩],
        finalState := some ⟨"completed".toList, 1, "g".toList, .null⟩,
        metadata := ⟨[], none⟩ }).stateMatch = true := by
  have h := replay_identity
    { traceId := "t1".toList, agentId := "a".toList, taskId := "k".toList,
      status := "completed".toList,
      steps := [⟨1, "llm".toList, .null, .null,
        ⟨"completed".toList, 1, "g".toList, .null⟩⟩],
      finalState := some ⟨"completed".toList, 1, "g".toList, .null⟩,
      metadata := ⟨[], none⟩ }
    ⟨by decide, by decide⟩
  exact ⟨h.1, h.2.2.2.1⟩

/-- `ReplayEngine.findNextStep`: scan forward from the cursor for the next
step of the requested type; on a hit the cursor moves past it, on a miss the
cursor is left unchanged (the source leaves `currentStepIndex` untouched). -/
def findNextStepAux : List RStep → Nat → Str → Option (RStep × Nat)
  | [], _, _ => none
  | s :: rest, i, ty =>
      if s.stepType = ty then some (s, i + 1) else findNextStepAux rest (i + 1) ty

def findNextStepFrom (steps : List RStep) (ty : Str) (i : Nat) :
    Option (RStep × Nat) :=
  findNextStepAux (steps.drop i) i ty

structure ToolResult where
  success : Bool
  result : JValue
  error : Option Str
  deriving DecidableEq

def jfield (v : JValue) (k : Str) : Option JValue :=
  match v with
  | .obj kvs => jlookup kvs k
  | _ => none

/-- `toolStep.input.toolName` as compared with `!==` against the requested
name: any non-string (or absent) field compares unequal to every string. -/
def inputToolName (input : JValue) : Option Str :=
  match jfield input ("toolName".toList) with
  | some (.str s) => some s
  | _ => none

/-- The recorded tool output, fields `success` / `result` / `error` of a
`ToolStep`'s output payload. -/
def recordedToolResult (o : JValue) : ToolResult :=
  { success := match jfield o ("success".toList) with
      | some (.bool b) => b
      | _ => false
    result := (jfield o ("result".toList)).getD .null
    error := match jfield o ("error".toList) with
      | some (.str s) => some s
      | _ => none }

/-- The `execute` body of a replay mock tool
(`ReplayEngine.createReplayTools`), acting on the engine state
`(cursor, divergences)`: consume the next recorded `tool` step; when it is
missing or its recorded tool name differs from the requested one, return an
error result.  No divergence is recorded on either path. -/
def replayToolExec (t : Trace) (cur : Nat) (divs : List Divergence)
    (toolName : Str) : ToolResult × Nat × List Divergence :=
  match findNextStepFrom t.steps ("tool".toList) cur with
  | none =>
      (⟨false, .null, some (("No recorded output for tool: ".toList) ++ toolName)⟩,
        cur, divs)
  | some (toolStep, cur') =>
      if inputToolName toolStep.input ≠ some toolName then
        (⟨false, .null, some (("No recorded output for tool: ".toList) ++ toolName)⟩,
          cur', divs)
      else
        (recordedToolResult toolStep.output, cur', divs)

/-- C3 counterexample: invoking the replay tool endpoint with name `beta`
when the next recorded tool step is named `alpha` returns an error result but
records no divergence at all — the divergence list stays empty, so no
`output_mismatch` entry is collected, contrary to the claim. -/
theorem replayToolExec_cex :
    (replayToolExec
      { traceId := "t1".toList, agentId := "a".toList, taskId := "k".toList,
        status := "completed".toList,
        steps := [⟨1, "tool".toList,
          .obj (.cons ("toolName".toList) (.str ("alpha".toList)) .nil),
          .null, ⟨"running".toList, 1, "g".toList, .null⟩⟩],
        finalState := none, metadata := ⟨["alpha".toList], none⟩ }
      0 [] ("beta".toList)).2.2 = [] ∧
    (replayToolExec
      { traceId := "t1".toList, agentId := "a".toList, taskId := "k".toList,
        status := "completed".toList,
        steps := [⟨1, "tool".toList,
          .obj (.cons ("toolName".toList) (.str ("alpha".toList)) .nil),
          .null, ⟨"running".toList, 1, "g".toList, .null⟩⟩],
        finalState := none, metadata := ⟨["alpha".toList], none⟩ }
      0 [] ("beta".toList)).1.success = false := by
  constructor
  · rfl
  · rfl

/-- C3 (amended): when the requested tool name does not match the recorded
tool name of the next `tool` step at the cursor, the engine returns an error
result (`success = false` with an error message) to the caller, advances the
cursor past the consumed step, and leaves the divergence list unchanged — it
records no divergence, and the replay is not aborted (the endpoint returns
normally). -/
theorem replayToolExec_spec (t : Trace) (cur : Nat) (divs : List Divergence)
    (name : Str) (st : RStep) (cur' : Nat)
    (hfind : findNextStepFrom t.steps ("tool".toList) cur = some (st, cur'))
    (hmm : inputToolName st.input ≠ some name) :
    (replayToolExec t cur divs name).1.success = false ∧
    (replayToolExec t cur divs name).1.error =
      some (("No recorded output for tool: ".toList) ++ name) ∧
    (replayToolExec t cur divs name).2.2 = divs ∧
    (replayToolExec t cur divs name).2.1 = cur' := by
  rw [replayToolExec, hfind]
  dsimp only
  rw [if_pos hmm]
  exact ⟨rfl, rfl, rfl, rfl⟩

/-- C3 witness: the amended claim applied to the `alpha`-vs-`beta` trace. -/
theorem replayToolExec_spec_witness :
    (replayToolExec
      { traceId := "t1".toList, agentId := "a".toList, taskId := "k".toList,
        status := "completed".toList,
        steps := [⟨1, "tool".toList,
          .obj (.cons ("toolName".toList) (.str ("alpha".toList)) .nil),
          .null, ⟨"running".toList, 1, "g".toList, .null⟩⟩],
        finalState := none, metadata := ⟨["alpha".toList], none⟩ }
      0 [⟨9, .state_mismatch, .null, .null, []⟩] ("gamma".toList)).2.2 =
      [⟨9, .state_mismatch, .null, .null, []⟩] :=
  (replayToolExec_spec
    { traceId := "t1".toList, agentId := "a".toList, taskId := "k".toList,
      status := "completed".toList,
      steps := [⟨1, "tool".toList,
        .obj (.cons ("toolName".toList) (.str ("alpha".toList)) .nil),
        .null, ⟨"running".toList, 1, "g".toList, .null⟩⟩],
      finalState := none, metadata := ⟨["alpha".toList], none⟩ }
    0 [⟨9, .state_mismatch, .null, .null, []⟩] ("gamma".toList)
    ⟨1, "tool".toList,
      .obj (.cons ("toolName".toList) (.str ("alpha".toList)) .nil),
      .null, ⟨"running".toList, 1, "g".toList, .null⟩⟩ 1
    (by decide) (by decide)).2.2.1

end ACP
